import Mathlib

/-!
Verification development for the langkit parser-generator core
(`src/langkit/parsers.py`).

We shallowly embed the data model and the operations the specification
talks about: the `CompiledType` values that parsers report as result
types, the `Or` alternation type computation, the `List` fold-target
field typing, the `always_make_progress` predicate, the left-recursion
analysis, `Row.assign_wrapper`, `Grammar.add_rules`,
`Grammar.get_unreferenced_rules`, the `__or__` flattening construction,
the `List.__init__` constructor check and the `Row.generate_code`
kept-slot bookkeeping.

Python assertion failures are modelled as `Except.error` / `Option.none`
results.  Machinery that lives outside the two source files of the
repository (the `compiled_types` class hierarchy and
`langkit.utils.common_ancestor`) is modelled from the specification and
flagged as such in the corresponding doc comments.
-/

namespace Langkit

/-!
## AST-node classes and compiled types

`compiled_types.py` is not part of the sources; the specification
describes its interface (section 6): a single-rooted class hierarchy
with a nearest-common-ancestor operation.  We model an AST-node class
by its path from the root of the hierarchy: the root is `[]`, its
children are `[0]`, `[1]`, ..., a child of `[0]` is `[0, 0]`, and so
on.  A class `d` is a subclass of `c` iff `c`'s path is a prefix of
`d`'s path.
-/

/-- Path from the hierarchy root identifying one AST-node class. -/
abbrev NodePath := List Nat

/-- Modelled from the spec: `langkit.utils.common_ancestor` on two
AST-node classes ("a way to compute the nearest common ancestor of a
set of node types", spec section 6).  With classes as root paths, the
nearest common ancestor is the longest common path prefix. -/
def commonAncestorPath : NodePath → NodePath → NodePath
  | a :: as, b :: bs => if a = b then a :: commonAncestorPath as bs else []
  | _, _ => []

/-- A `CompiledType` value as reported by `Parser.get_type`: the
`Token` class, `BoolType`, an AST-node class, an enum type, or a list
type (`compiled_types` exposes "a designated list-type constructor
given an element type", spec section 6).  Python `None` results are
represented as `Option TypeRef = none` at use sites. -/
inductive TypeRef where
  | token : TypeRef
  | bool : TypeRef
  | node (path : NodePath) : TypeRef
  | enumT (id : Nat) : TypeRef
  | listT (elem : TypeRef) : TypeRef
deriving DecidableEq, Repr

/-- Embeds `issubclass(t, ASTNode)` for a type value. -/
def TypeRef.isNode : TypeRef → Bool
  | .node _ => true
  | _ => false

/-- The Python metaclass of a type value, as used by the
`type(t) == type(typs[0])` assertion in `Or.get_type`.  Every
`CompiledType` member we model (`Token`, `BoolType`, AST-node classes,
enum types, list types) is a plain Python class, and `type(c)` of a
plain class is the metaclass `type`, the same object for all of them. -/
inductive PyMeta where
  | typeMeta : PyMeta
deriving DecidableEq, Repr

/-- Embeds `type(t)` for a modelled type value: all modelled values are plain
classes, whose Python type is the shared metaclass `type`. -/
def pyTypeOf (_ : TypeRef) : PyMeta := .typeMeta

/-- Nearest common ancestor of a nonempty list of AST-node types
(`common_ancestor(*types)` in `Or.get_type`); fails when the list is
empty or contains a non-node type, situations in which the external
`common_ancestor` has no defined result. -/
def commonAncestorOfTypes : List TypeRef → Except String TypeRef
  | [] => .error "common_ancestor needs at least one type"
  | [.node p] => .ok (.node p)
  | .node p :: rest => do
    match ← commonAncestorOfTypes rest with
    | .node q => .ok (.node (commonAncestorPath p q))
    | _ => .error "common_ancestor applied to a non-node type"
  | _ => .error "common_ancestor applied to a non-node type"

/-!
## `Or.get_type` (src/langkit/parsers.py, lines 494-528)

The recursive part of `Or.get_type` queries each alternative for its
type; `None` answers (re-entrant cycle guards) are filtered out and
the remaining answers are collected in a Python `set`.  We embed the
body that runs once the alternatives' answers are in hand: the input
is the list of the alternatives' `get_type()` results in order
(`none` for a `None` answer), `types` is that list deduplicated (the
set), and the result is the computed type or an error for a failed
assertion. -/

/-- Body of `Or.get_type` after the sub-parser types have been
gathered: filter out `None` contributions, deduplicate (the `types`
set), then either take the common ancestor (all-AST-node case) or
check the `type(t) == type(typs[0])` assertion and return the first
element of the set. -/
def orGetType (alternativeTypes : List (Option TypeRef)) : Except String (Option TypeRef) :=
  let types := (alternativeTypes.filterMap id).dedup
  if types.all TypeRef.isNode then
    match types with
    | [] => .ok none
    | _ => (commonAncestorOfTypes types).map some
  else
    match types with
    | [] => .error "unreachable: a non-node type is present"
    | t0 :: _ =>
      if types.all fun t => pyTypeOf t = pyTypeOf t0 then
        .ok (some t0)
      else
        .error "InconsistentAlternativeTypesError"

/-!
## `List.get_type` and `List.compute_fields_types`
(src/langkit/parsers.py, lines 733-751)
-/

/-- The interface of an AST-node class as a fold target: its identity
in the hierarchy and the number of parse fields it declares
(`get_parse_fields`).  `set_types` effects are returned as data. -/
structure NodeClassDecl where
  path : NodePath
  numParseFields : Nat
deriving DecidableEq, Repr

/-- Embeds `List.get_type`: with a fold target (`revtree_class`), the common
ancestor of the element type and the fold-target class; without one,
the element type's list type.  The element type must be an AST-node
class for `common_ancestor` to apply (fold targets are only usable on
node-typed elements); a non-node element with a fold target has no
defined result, modelled as `none`. -/
def listGetType (elemTy : TypeRef) (revtree : Option NodeClassDecl) : Option TypeRef :=
  match revtree with
  | some c =>
    match elemTy with
    | .node p => some (.node (commonAncestorPath p c.path))
    | _ => none
  | none => some (.listT elemTy)

/-- Embeds `List.compute_fields_types`: no fold target means no contribution
(`.ok none`); with a fold target, assert that the target class
declares exactly two parse fields, then `set_types([self.get_type(),
self.get_type()])` — the returned value is the list of types assigned
to the fold-target class's fields. -/
def listComputeFieldsTypes (elemTy : TypeRef) (revtree : Option NodeClassDecl) :
    Except String (Option (List (Option TypeRef))) :=
  match revtree with
  | none => .ok none
  | some c =>
    if c.numParseFields = 2 then
      .ok (some [listGetType elemTy revtree, listGetType elemTy revtree])
    else
      .error "InvalidFoldTargetError: for folding, revtree classes must have two fields"

/-!
## The parser tree

One constructor per `Parser` subclass of `src/langkit/parsers.py`,
with the constructor fields the analyses below read: `Tok` keeps its
token value and `keep` flag; `Or` and `Row` their ordered sub-parser
lists; `List` its element parser, optional separator, `empty_valid`
flag and optional fold target; `Opt` its sub-parser and the
`_booleanize` / `_is_error` flags; `Extract` its target and index;
`Discard`, `Transform` their sub-parser; `Defer` its rule name; `Null`
its result type; `Enum` its optional sub-parser and enum value. -/
inductive GParser where
  | tok (val : String) (keep : Bool) : GParser
  | orP (parsers : List GParser) : GParser
  | row (parsers : List GParser) : GParser
  | listP (parser : GParser) (sep : Option GParser) (empty_valid : Bool)
      (revtree : Option NodeClassDecl) : GParser
  | opt (parser : GParser) (booleanize : Bool) (isError : Bool) : GParser
  | extract (parser : GParser) (index : Nat) : GParser
  | discardP (parser : GParser) : GParser
  | defer (rule_name : String) : GParser
  | transform (parser : GParser) (typ : NodeClassDecl) : GParser
  | nullP (typ : TypeRef) : GParser
  | enum (parser : Option GParser) (enumId : Nat) : GParser
deriving Repr

/-- Embeds `always_make_progress` (lines 570-578): "Return whether `parser`
cannot match an empty sequence of tokens."  For a `List`,
`not parser.empty_valid or always_make_progress(parser.parser)`;
otherwise `not isinstance(parser, (Opt, Null))`. -/
def alwaysMakeProgress : GParser → Bool
  | .listP p _ empty_valid _ => !empty_valid || alwaysMakeProgress p
  | .opt _ _ _ => false
  | .nullP _ => false
  | _ => true

/-- Embeds `Parser.discard` and its overrides: `False` on the base class,
`not self.keep` for `Tok`, `True` for `Discard`. -/
def discardOf : GParser → Bool
  | .tok _ keep => !keep
  | .discardP _ => true
  | _ => false

/-!
## Left-recursion analysis (`_is_left_recursive` overrides)

Each override explores the tree; `List._is_left_recursive` (lines
692-697) contains a Python `assert`, so the embedded analysis returns
`Option Bool`, with `none` for an assertion failure.  `isLROr` embeds
the short-circuiting `any(...)` of `Or._is_left_recursive` and
`isLRRow` the loop of `Row._is_left_recursive` (return at the first
left-recursive sub-parser, stop at the first sub-parser that always
makes progress). -/
mutual

def isLeftRecursive (rule : String) : GParser → Option Bool
  | .tok _ _ => some false
  | .orP ps => isLROr rule ps
  | .row ps => isLRRow rule ps
  | .listP p _ empty_valid _ =>
    match isLeftRecursive rule p with
    | none => none
    | some res =>
      if res && (empty_valid || !alwaysMakeProgress p) then none
      else some res
  | .opt p _ _ => isLeftRecursive rule p
  | .extract p _ => isLeftRecursive rule p
  | .discardP p => isLeftRecursive rule p
  | .defer n => some (n == rule)
  | .transform p _ => isLeftRecursive rule p
  | .nullP _ => some false
  | .enum op _ =>
    match op with
    | some p => isLeftRecursive rule p
    | none => some false

def isLROr (rule : String) : List GParser → Option Bool
  | [] => some false
  | p :: ps =>
    match isLeftRecursive rule p with
    | none => none
    | some true => some true
    | some false => isLROr rule ps

def isLRRow (rule : String) : List GParser → Option Bool
  | [] => some false
  | p :: ps =>
    match isLeftRecursive rule p with
    | none => none
    | some true => some true
    | some false => if alwaysMakeProgress p then some false else isLRRow rule ps

end

/-!
## `Parser.__or__` (lines 214-238) and `Or.__init__` (lines 473-481)
-/

/-- The alternatives a parser contributes when combined with `|`: an
`Or` parser contributes its own alternatives (the flattening step of
`__or__`), any other parser contributes itself. -/
def orContribution : GParser → List GParser
  | .orP ps => ps
  | p => [p]

/-- Embeds `a | b`: build an `Or` out of the two contribution lists.  Both
operands are already parsers here, so the `resolve` call of the source
is the identity. -/
def orCombine (a b : GParser) : GParser :=
  .orP (orContribution a ++ orContribution b)

/-- Whether a parser is an `Or` node. -/
def isOrNode : GParser → Bool
  | .orP _ => true
  | _ => false

/-!
## `List.__init__` (lines 705-728)
-/

/-- Embeds `List.__init__`: record element parser, separator, `empty_valid`
and `revtree`; when `empty_valid` is set, assert that no fold target
was given. -/
def mkList (parser : GParser) (sep : Option GParser) (empty_valid : Bool)
    (revtree : Option NodeClassDecl) : Except String GParser :=
  if empty_valid && revtree.isSome then
    .error "assertion failed: empty_valid excludes a revtree fold target"
  else
    .ok (.listP parser sep empty_valid revtree)

/-!
## `Row.generate_code` kept-slot bookkeeping (lines 655-668)

`Row.generate_code` draws one generated sub-result name per slot; we
identify the sub-result of slot `i` with the index `i`.  `self.args`
is the comprehension `[r for r, m in zip(subresults, parsers) if not
m.discard()]`, and the per-slot loop appends a declaration
`(subresult, parser.get_type())` exactly when `not parser.discard()`.
-/

/-- Helper: the kept sub-result indices of the slots of `ps`, the
first slot carrying index `start`. -/
def keptSlotsFrom (start : Nat) : List GParser → List Nat
  | [] => []
  | p :: ps =>
    if discardOf p then keptSlotsFrom (start + 1) ps
    else start :: keptSlotsFrom (start + 1) ps

/-- Embeds `self.args`: sub-results of the non-discarded slots. -/
def rowArgs (ps : List GParser) : List Nat :=
  keptSlotsFrom 0 ps

/-- Embeds `self.allargs`: every slot's sub-result. -/
def rowAllArgs (ps : List GParser) : List Nat :=
  List.range ps.length

/-- The slots for which the per-slot loop of `Row.generate_code`
appends a `(subresult, type)` declaration: exactly the slots whose
parser is not discarded. -/
def rowDeclSlots (ps : List GParser) : List Nat :=
  keptSlotsFrom 0 ps

/-!
## `Row.assign_wrapper` (lines 619-633)

The relevant `Row` state is its `is_root` flag and its `typ` field
(`None` until a wrapper is assigned).  `assign_wrapper(parser)`
asserts `not self.is_root and not self.typ`, then stores
`parser.get_type()` into `self.typ`.  The wrapper's `get_type()`
result is passed in as `wrapperType` (`none` when the wrapper is a
`Discard`, whose `get_type` returns `None`, line 961-963). -/
structure RowState where
  is_root : Bool
  typ : Option TypeRef
deriving DecidableEq, Repr

/-- Embeds `Row.assign_wrapper`, with the assertion modelled as an error. -/
def assignWrapper (st : RowState) (wrapperType : Option TypeRef) : Except String RowState :=
  if !st.is_root && st.typ.isNone then
    .ok { st with typ := wrapperType }
  else
    .error "MultipleWrapperError: Row parsers must be used by a single parent parser"

/-!
## `Grammar.add_rules` (lines 119-133)

`add_rules` iterates over the given (name, rule) pairs; for each it
asserts the name is not yet registered, stores the rule, then calls
`rule.set_name(names.Name.from_lower(name))`, `rule.set_grammar(self)`
and sets `rule.is_root = True`.  A rule node is modelled by the three
fields these calls touch on the inserted node: its display name
(`names.Name` machinery lives outside the sources; modelled from the
spec — "assigns the node's display name from `name`" — as the name
string itself), the grammar it is bound to (grammars are identified by
a number to avoid the registry/node reference cycle), and its
`is_root` flag.  The recursive propagation of `set_name` /
`set_grammar` into child parsers touches only children, not the
inserted node, and is not consulted by the claims. -/
structure RuleNode where
  nm : String
  boundTo : Option Nat
  is_root : Bool
deriving DecidableEq, Repr

/-- A grammar's rule registry: its identity and the insertion-ordered
(name, node) mapping.  A fresh grammar (`Grammar.__init__`) has an
empty registry. -/
structure GrammarReg where
  gid : Nat
  rules : List (String × RuleNode)
deriving DecidableEq, Repr

/-- The registered rule names, in insertion order. -/
def regNames (g : GrammarReg) : List String :=
  g.rules.map (fun kv => kv.1)

/-- The loop body of `add_rules` over the remaining pairs: assert the
name is free, then insert the renamed, grammar-bound, root-marked
node. -/
def addRulesGo (gid : Nat) (rules : List (String × RuleNode)) :
    List (String × RuleNode) → Except String (List (String × RuleNode))
  | [] => .ok rules
  | (n, _r) :: rest =>
    if (rules.map (fun kv => kv.1)).contains n then
      .error "DuplicateRuleError"
    else
      addRulesGo gid (rules ++ [(n, ⟨n, some gid, true⟩)]) rest

/-- Embeds `Grammar.add_rules`. -/
def addRules (g : GrammarReg) (kvs : List (String × RuleNode)) : Except String GrammarReg :=
  (addRulesGo g.gid g.rules kvs).map fun rs => { g with rules := rs }

/-!
## `Grammar.get_unreferenced_rules` (lines 143-183)

The grammar here maps rule names to parser trees.  `visit_parser`
collects the `Defer` rule names in a tree by recursing through
`children()`; note three source facts the embedding preserves:
`List.children` returns only the element parser (not the separator),
`Defer.children` is the inherited empty list, and `Enum.children`
returns the empty list even when a sub-parser is present. -/
structure GrammarRules where
  rules : List (String × GParser)
  main_rule_name : String

/-- Embeds the `self.rules[rule_name]` lookup. -/
def lookupRule (g : GrammarRules) (n : String) : Option GParser :=
  (g.rules.find? fun kv => kv.1 == n).map fun kv => kv.2

/-- The registered rule names. -/
def ruleNames (g : GrammarRules) : List String :=
  g.rules.map fun kv => kv.1

mutual

/-- The `Defer` rule names occurring in a parser tree, following the
source's `children()` methods (`visit_parser` marks a `Defer`'s target
and recurses into `children()`). -/
def deferNames : GParser → List String
  | .tok _ _ => []
  | .orP ps => deferNamesList ps
  | .row ps => deferNamesList ps
  | .listP p _ _ _ => deferNames p
  | .opt p _ _ => deferNames p
  | .extract p _ => deferNames p
  | .discardP p => deferNames p
  | .defer n => [n]
  | .transform p _ => deferNames p
  | .nullP _ => []
  | .enum _ _ => []

def deferNamesList : List GParser → List String
  | [] => []
  | p :: ps => deferNames p ++ deferNamesList ps

end

/-- The names not yet seen among the grammar's (deduplicated) rule
names: the quantity that shrinks every time `visit_rule` actually
visits a rule. -/
def unseenCount (g : GrammarRules) (seen : List String) : Nat :=
  ((ruleNames g).dedup.filter fun n => decide (n ∉ seen)).length

/-- Helper for the termination of the traversal: marking a registered,
not-yet-seen name as seen strictly shrinks the unseen count. -/
theorem unseenCount_lt (g : GrammarRules) (seen : List String) (n : String)
    (hmem : n ∈ ruleNames g) (hns : n ∉ seen) :
    unseenCount g (n :: seen) < unseenCount g seen := by
  unfold unseenCount
  have hsub : ((ruleNames g).dedup.filter fun x => decide (x ∉ n :: seen)).Sublist
      ((ruleNames g).dedup.filter fun x => decide (x ∉ seen)) := by
    apply List.monotone_filter_right
    intro x hx
    simp only [decide_eq_true_eq, List.mem_cons, not_or] at hx ⊢
    exact hx.2
  have hle := hsub.length_le
  rcases Nat.lt_or_ge (((ruleNames g).dedup.filter fun x => decide (x ∉ n :: seen)).length)
      (((ruleNames g).dedup.filter fun x => decide (x ∉ seen)).length) with h | h
  · exact h
  · exfalso
    have heq : ((ruleNames g).dedup.filter fun x => decide (x ∉ n :: seen)) =
        ((ruleNames g).dedup.filter fun x => decide (x ∉ seen)) :=
      hsub.eq_of_length (Nat.le_antisymm hle h)
    have hn1 : n ∈ (ruleNames g).dedup.filter fun x => decide (x ∉ seen) := by
      simp only [List.mem_filter, List.mem_dedup, decide_eq_true_eq]
      exact ⟨hmem, hns⟩
    rw [← heq] at hn1
    simp at hn1

/-- The reachability traversal of `get_unreferenced_rules`, rendered
with an explicit depth-first worklist: the recursive
`visit_rule`/`visit_parser` pair of the source marks a rule name as
referenced, then visits the `Defer` targets of its tree depth-first,
skipping names already marked.  The worklist rendering visits the same
rules in the same depth-first order; it makes the decreasing measure
(unseen registered names, then worklist length) explicit.  A `Defer`
target absent from the registry makes the source raise `KeyError`
(`self.rules[rule_name]`), modelled as `none`. -/
def visitLoop (g : GrammarRules) : List String → List String → Option (List String)
  | [], seen => some seen
  | n :: rest, seen =>
    if hn : n ∈ seen then visitLoop g rest seen
    else
      match hl : lookupRule g n with
      | none => none
      | some p => visitLoop g (deferNames p ++ rest) (n :: seen)
termination_by wl seen => (unseenCount g seen, wl.length)
decreasing_by
  · apply Prod.Lex.right
    exact Nat.lt_succ_self _
  · apply Prod.Lex.left
    apply unseenCount_lt g seen n _ hn
    have : (g.rules.find? fun kv => kv.1 == n).isSome := by
      unfold lookupRule at hl
      cases hf : g.rules.find? fun kv => kv.1 == n with
      | none => rw [hf] at hl; simp at hl
      | some kv => simp [hf]
    rcases Option.isSome_iff_exists.mp this with ⟨kv, hkv⟩
    have hkvmem := List.mem_of_find?_eq_some hkv
    have hkvn := List.find?_some hkv
    simp only [beq_iff_eq] at hkvn
    unfold ruleNames
    exact hkvn ▸ List.mem_map_of_mem (fun kv => kv.1) hkvmem

/-- The set of referenced rules: `visit_rule(self.main_rule_name)`
starting from an empty `referenced_rules` set. -/
def referencedRules (g : GrammarRules) : Option (List String) :=
  visitLoop g [g.main_rule_name] []

/-- Embeds `Grammar.get_unreferenced_rules`: `set(self.rules) -
referenced_rules`, as the registered names not in the referenced
set. -/
def getUnreferencedRules (g : GrammarRules) : Option (List String) :=
  (referencedRules g).map fun referenced =>
    (ruleNames g).filter fun n => decide (n ∉ referenced)

/-- Names transitively referenced from the main rule through `Defer`
nodes: the main rule itself, plus every `Defer` target of a reachable
registered rule's tree. -/
inductive Reaches (g : GrammarRules) : String → Prop where
  | main : Reaches g g.main_rule_name
  | step {r : String} {p : GParser} {n : String} :
      Reaches g r → lookupRule g r = some p → n ∈ deferNames p → Reaches g n

/-!
## Claims
-/

/-- C1: the claim says that when the alternatives' types are not all
AST-node types and not all identical, `Or.get_type` fails with
`InconsistentAlternativeTypesError`.  The code instead asserts
`type(t) == type(typs[0])`, which compares Python metaclasses: for the
two distinct non-node type classes `Token` and `BoolType` both
metaclasses are `type`, so the assertion passes and `get_type`
succeeds, returning an arbitrary element of the type set — against
both the claim and the source's own comment ("otherwise, make sure
that all alternatives return exactly the same type"). -/
theorem or_get_type_mixed_types_no_failure :
    orGetType [some .token, some .bool] = .ok (some .token) := by rfl

/-- C2 counterexample: a folding `List` whose element type is the node
class `[0]` and whose fold target is the sibling class `[1]` (with the
required two parse fields) assigns the root class `[]` — the common
ancestor computed by `List.get_type` — to both fields, not the
element type `[0]` the claim requires. -/
theorem list_fold_fields_not_element_type :
    listComputeFieldsTypes (.node [0]) (some ⟨[1], 2⟩) =
      .ok (some [some (.node []), some (.node [])]) ∧
    (TypeRef.node [] : TypeRef) ≠ .node [0] := by
  exact ⟨rfl, by decide⟩

/-- C2 (amended): for a `List` with a fold target, the
fields-type-computation pass assigns the List's own result type —
`List.get_type()`, the nearest common ancestor of the element type and
the fold-target class — to both of the fold target's fields (this
equals the element type exactly when that common ancestor is the
element type, e.g. when the fold target is a descendant of the element
class), and fails with `InvalidFoldTargetError` when the fold-target
class does not declare exactly two parse fields. -/
theorem list_fold_fields_assignment (elemTy : TypeRef) (c : NodeClassDecl) :
    (c.numParseFields = 2 →
      listComputeFieldsTypes elemTy (some c) =
        .ok (some [listGetType elemTy (some c), listGetType elemTy (some c)])) ∧
    (c.numParseFields ≠ 2 → ∃ e, listComputeFieldsTypes elemTy (some c) = .error e) ∧
    (∀ p, elemTy = .node p →
      listGetType elemTy (some c) = some (.node (commonAncestorPath p c.path))) := by
  refine ⟨fun h2 => ?_, fun hne => ?_, fun p hp => ?_⟩
  · simp [listComputeFieldsTypes, h2]
  · simp [listComputeFieldsTypes, hne]
  · simp [listGetType, hp]

/-- C2 witness for the amended claim: element class `[0]`, fold target
`[0, 1]` (a descendant, two fields): both fields receive the List's
result type. -/
theorem list_fold_fields_assignment_witness :
    listComputeFieldsTypes (.node [0]) (some ⟨[0, 1], 2⟩) =
      .ok (some [listGetType (.node [0]) (some ⟨[0, 1], 2⟩),
        listGetType (.node [0]) (some ⟨[0, 1], 2⟩)]) :=
  (list_fold_fields_assignment (.node [0]) ⟨[0, 1], 2⟩).1 rfl

/-- C3: the claim (and the docstring of `always_make_progress`: return
whether the parser "cannot match an empty sequence of tokens") says
the predicate is false for a `List` that is not forced non-empty.  The
code computes `not empty_valid or always_make_progress(element)`, so
for `List(Tok("x"), empty_valid=True)` — which can match zero
elements, i.e. empty input — it returns `True`. -/
theorem always_make_progress_empty_valid_list :
    alwaysMakeProgress (.listP (.tok "x" false) none true none) = true := by rfl

/-- C5 counterexample: a first wrapper whose `get_type()` is `None` —
a `Discard`, bound by `Discard.__init__` — leaves the Row's `typ`
field `None`, so a second wrapper (here with an AST-node type, as a
`Transform` would report) binds successfully instead of failing with
`MultipleWrapperError`. -/
theorem second_wrapper_after_discard_succeeds :
    (assignWrapper ⟨false, none⟩ none).bind (fun st => assignWrapper st (some (.node [0]))) =
      .ok ⟨false, some (.node [0])⟩ := by rfl

/-- C5 (amended): a Row registered as a named (root) rule rejects any
wrapper; a wrapper binds to a non-root, unwrapped Row, storing the
wrapper's result type; and binding a second wrapper fails with
`MultipleWrapperError` whenever the first wrapper's result type is not
`None` (as for Extract of a kept slot, AST-transform, boolean Opt or
Enum) — a first wrapper with a `None` result type (Discard) leaves the
Row looking unwrapped, and a second binding then succeeds. -/
theorem assign_wrapper_spec (st : RowState) (w1 w2 : Option TypeRef) :
    (st.is_root = true → ∃ e, assignWrapper st w1 = .error e) ∧
    (st.is_root = false → st.typ = none → assignWrapper st w1 = .ok ⟨false, w1⟩) ∧
    (st.is_root = false → st.typ = none → w1 ≠ none →
      ∃ e, (assignWrapper st w1).bind (fun st2 => assignWrapper st2 w2) = .error e) := by
  refine ⟨fun hr => ?_, fun hr ht => ?_, fun hr ht hw => ?_⟩
  · simp [assignWrapper, hr]
  · simp [assignWrapper, hr, ht]
  · simp [assignWrapper, hr, ht, Except.bind, Option.isNone_iff_eq_none, hw]

/-- C5 witness for the amended claim: binding a `Transform`-typed
wrapper to a fresh non-root Row succeeds, and a second binding then
fails. -/
theorem assign_wrapper_spec_witness :
    assignWrapper ⟨false, none⟩ (some (.node [0])) = .ok ⟨false, some (.node [0])⟩ ∧
    (∃ e, (assignWrapper ⟨false, none⟩ (some (.node [0]))).bind
      (fun st2 => assignWrapper st2 (some .token)) = .error e) :=
  ⟨(assign_wrapper_spec ⟨false, none⟩ (some (.node [0])) (some .token)).2.1 rfl rfl,
   (assign_wrapper_spec ⟨false, none⟩ (some (.node [0])) (some .token)).2.2 rfl rfl
     (by simp)⟩

/-- C8: combining parsers with `|` flattens nested alternations: for
all parsers `a`, `b`, `c`, the parser `a | (b | c)` is a single `Or`
node whose ordered alternative list coincides with that of
`(a | b) | c`, and when none of the three operands is itself an `Or`
node the alternatives are exactly `[a, b, c]`. -/
theorem or_combine_flattens (a b c : GParser) :
    (∃ alts, orCombine a (orCombine b c) = .orP alts ∧
      orCombine (orCombine a b) c = .orP alts) ∧
    (isOrNode a = false → isOrNode b = false → isOrNode c = false →
      orCombine a (orCombine b c) = .orP [a, b, c]) := by
  constructor
  · refine ⟨orContribution a ++ (orContribution b ++ orContribution c), ?_, ?_⟩
    · simp [orCombine, orContribution]
    · simp [orCombine, orContribution, List.append_assoc]
  · intro ha hb hc
    have hA : orContribution a = [a] := by cases a <;> simp_all [orContribution, isOrNode]
    have hB : orContribution b = [b] := by cases b <;> simp_all [orContribution, isOrNode]
    have hC : orContribution c = [c] := by cases c <;> simp_all [orContribution, isOrNode]
    show GParser.orP (orContribution a ++ orContribution (orCombine b c)) = _
    have hBC : orContribution (orCombine b c) = orContribution b ++ orContribution c := rfl
    rw [hBC, hA, hB, hC]
    rfl

/-- C8 witness: three token parsers (none an `Or`) flatten to the
three-element alternative list. -/
theorem or_combine_flattens_witness :
    isOrNode (.tok "a" false) = false ∧
    orCombine (.tok "a" false) (orCombine (.tok "b" false) (.tok "c" false)) =
      .orP [.tok "a" false, .tok "b" false, .tok "c" false] :=
  ⟨rfl, (or_combine_flattens (.tok "a" false) (.tok "b" false) (.tok "c" false)).2
    rfl rfl rfl⟩

/-- C9: `List.__init__` with `empty_valid=True` and a fold target
fails its assertion, and every successfully constructed `List` with a
fold target has `empty_valid = False`. -/
theorem list_empty_valid_excludes_revtree (p : GParser) (sep : Option GParser)
    (c : NodeClassDecl) :
    (∃ e, mkList p sep true (some c) = .error e) ∧
    (∀ empty_valid rt q, mkList p sep empty_valid rt = .ok q →
      q = .listP p sep empty_valid rt ∧ (rt.isSome = true → empty_valid = false)) := by
  constructor
  · simp [mkList]
  · intro empty_valid rt q hok
    unfold mkList at hok
    by_cases hcond : (empty_valid && rt.isSome) = true
    · simp [hcond] at hok
    · simp only [hcond, Bool.false_eq_true, if_neg, reduceIte] at hok
      cases hok
      refine ⟨rfl, fun hsome => ?_⟩
      cases empty_valid
      · rfl
      · simp [hsome] at hcond

/-- C9 witness: constructing a folding list with `empty_valid=True`
fails; a folding list built with `empty_valid=False` succeeds and is
forced non-empty. -/
theorem list_empty_valid_excludes_revtree_witness :
    (∃ e, mkList (.tok "x" false) none true (some ⟨[0], 2⟩) = .error e) ∧
    ((.listP (.tok "x" false) none false (some ⟨[0], 2⟩) : GParser) =
        .listP (.tok "x" false) none false (some ⟨[0], 2⟩) ∧
      ((some (⟨[0], 2⟩ : NodeClassDecl)).isSome = true → false = false)) :=
  ⟨(list_empty_valid_excludes_revtree (.tok "x" false) none ⟨[0], 2⟩).1,
   (list_empty_valid_excludes_revtree (.tok "x" false) none ⟨[0], 2⟩).2 false
     (some ⟨[0], 2⟩) (.listP (.tok "x" false) none false (some ⟨[0], 2⟩)) (by rfl)⟩

/-- C4: for a `List` whose element parser is left-recursive for the
rule under analysis, if the `List` can itself match empty input
(`empty_valid`, or an element that does not always make progress), the
left-recursion analysis hits the assertion of
`List._is_left_recursive` — a fatal internal-consistency failure
(`none`), not a recoverable result. -/
theorem list_left_recursive_empty_fatal (elem : GParser) (sep : Option GParser)
    (empty_valid : Bool) (rt : Option NodeClassDecl) (rule : String)
    (hlr : isLeftRecursive rule elem = some true)
    (hempty : empty_valid = true ∨ alwaysMakeProgress elem = false) :
    isLeftRecursive rule (.listP elem sep empty_valid rt) = none := by
  simp only [isLeftRecursive, hlr]
  rcases hempty with h | h <;> simp [h]

/-- C4 witness: the element `Defer("r")` is left-recursive for rule
`"r"`, and the analysis of `List(Defer("r"), empty_valid=True)` fails
fatally. -/
theorem list_left_recursive_empty_fatal_witness :
    isLeftRecursive "r" (.defer "r") = some true ∧
    isLeftRecursive "r" (.listP (.defer "r") none true none) = none := by
  have h1 : isLeftRecursive "r" (.defer "r") = some true := by
    simp [isLeftRecursive]
  exact ⟨h1, list_left_recursive_empty_fatal (.defer "r") none true none "r" h1
    (Or.inl rfl)⟩

/-- Membership in the kept-slot list: index `i` is kept iff some slot
`j` holds a non-discarded parser and `i` is `start + j`. -/
theorem mem_keptSlotsFrom (ps : List GParser) : ∀ start i : Nat,
    (i ∈ keptSlotsFrom start ps ↔
      ∃ j p, ps.get? j = some p ∧ discardOf p = false ∧ i = start + j) := by
  induction ps with
  | nil =>
    intro start i
    simp [keptSlotsFrom]
  | cons p ps ih =>
    intro start i
    by_cases hd : discardOf p
    · rw [keptSlotsFrom, if_pos hd, ih]
      constructor
      · rintro ⟨j, q, hget, hq, hi⟩
        exact ⟨j + 1, q, by simpa using hget, hq, by omega⟩
      · rintro ⟨j, q, hget, hq, hi⟩
        cases j with
        | zero =>
          rw [List.get?_cons_zero] at hget
          cases hget
          exact absurd hd (by simp [hq])
        | succ j =>
          exact ⟨j, q, by simpa using hget, hq, by omega⟩
    · rw [keptSlotsFrom, if_neg hd, List.mem_cons, ih]
      constructor
      · rintro (hi | ⟨j, q, hget, hq, hi⟩)
        · exact ⟨0, p, by simp, by simpa using hd, by omega⟩
        · exact ⟨j + 1, q, by simpa using hget, hq, by omega⟩
      · rintro ⟨j, q, hget, hq, hi⟩
        cases j with
        | zero =>
          left
          omega
        | succ j =>
          right
          exact ⟨j, q, by simpa using hget, hq, by omega⟩

/-- C10: the discard predicate of a `Tok` parser is the negation of
its `keep` flag — true with the default `keep=False` — and in
`Row.generate_code` a slot holding a `Tok(keep=False)` contributes
neither a positional argument (`self.args`) nor a declared result
variable, while a `Tok(keep=True)` slot is kept. -/
theorem tok_keep_kept_slots (v : String) (ps : List GParser) (i : Nat) :
    (∀ keep, discardOf (.tok v keep) = !keep) ∧
    (ps.get? i = some (.tok v false) → i ∉ rowArgs ps ∧ i ∉ rowDeclSlots ps) ∧
    (ps.get? i = some (.tok v true) → i ∈ rowArgs ps) := by
  refine ⟨fun keep => by cases keep <;> rfl, fun hget => ?_, fun hget => ?_⟩
  · have h : i ∉ keptSlotsFrom 0 ps := by
      rw [mem_keptSlotsFrom]
      rintro ⟨j, q, hj, hq, hi⟩
      have hj' : j = i := by omega
      subst hj'
      rw [hget] at hj
      cases hj
      simp [discardOf] at hq
    exact ⟨h, h⟩
  · rw [rowArgs, mem_keptSlotsFrom]
    exact ⟨i, .tok v true, hget, by simp [discardOf], by omega⟩

/-- C10 witness: in the row `[Tok("lp"), Tok("x", keep=True)]` the
first slot is discarded (no argument, no declaration) and the second
is kept. -/
theorem tok_keep_kept_slots_witness :
    (0 ∉ rowArgs [GParser.tok "lp" false, GParser.tok "x" true] ∧
      0 ∉ rowDeclSlots [GParser.tok "lp" false, GParser.tok "x" true]) ∧
    1 ∈ rowArgs [GParser.tok "lp" false, GParser.tok "x" true] :=
  ⟨(tok_keep_kept_slots "lp" [GParser.tok "lp" false, GParser.tok "x" true] 0).2.1 rfl,
   (tok_keep_kept_slots "x" [GParser.tok "lp" false, GParser.tok "x" true] 1).2.2 rfl⟩

/-- If some given pair's name is already registered, the `add_rules`
loop hits the duplicate assertion. -/
theorem addRulesGo_error_of_dup :
    ∀ (kvs rules : List (String × RuleNode)) (gid : Nat),
    (∃ kv ∈ kvs, kv.1 ∈ rules.map (fun kv => kv.1)) →
    ∃ e, addRulesGo gid rules kvs = .error e := by
  intro kvs
  induction kvs with
  | nil =>
    intro rules gid h
    simp at h
  | cons kv rest ih =>
    intro rules gid h
    obtain ⟨n, r⟩ := kv
    rw [addRulesGo]
    by_cases hc : (rules.map (fun kv => kv.1)).contains n
    · exact ⟨_, by rw [if_pos hc]⟩
    · rw [if_neg hc]
      apply ih
      rcases h with ⟨kv', hkv', hname⟩
      rcases List.mem_cons.mp hkv' with rfl | hmem
      · exact absurd hname (by simpa using hc)
      · refine ⟨kv', hmem, ?_⟩
        simp only [List.map_append, List.mem_append]
        exact Or.inl hname

/-- On success, the `add_rules` loop preserves the existing rules and
inserts, for every given pair `(n, r)`, the node renamed to `n`, bound
to the grammar and marked root. -/
theorem addRulesGo_ok :
    ∀ (kvs rules : List (String × RuleNode)) (gid : Nat) (rs : List (String × RuleNode)),
    addRulesGo gid rules kvs = .ok rs →
    (∀ kv ∈ rules, kv ∈ rs) ∧
    (∀ kv ∈ kvs, (kv.1, (⟨kv.1, some gid, true⟩ : RuleNode)) ∈ rs) := by
  intro kvs
  induction kvs with
  | nil =>
    intro rules gid rs h
    rw [addRulesGo] at h
    cases h
    exact ⟨fun kv hkv => hkv, by simp⟩
  | cons kv rest ih =>
    intro rules gid rs h
    obtain ⟨n, r⟩ := kv
    rw [addRulesGo] at h
    by_cases hc : (rules.map (fun kv => kv.1)).contains n
    · rw [if_pos hc] at h
      cases h
    · rw [if_neg hc] at h
      have hrec := ih (rules ++ [(n, ⟨n, some gid, true⟩)]) gid rs h
      refine ⟨fun kv hkv => hrec.1 kv (by simp [hkv]), ?_⟩
      intro kv hkv
      rcases List.mem_cons.mp hkv with rfl | hmem
      · exact hrec.1 _ (by simp)
      · exact hrec.2 kv hmem

/-- On success, the `add_rules` loop preserves the registry invariant:
unique rule names and every node marked root. -/
theorem addRulesGo_invariant :
    ∀ (kvs rules : List (String × RuleNode)) (gid : Nat) (rs : List (String × RuleNode)),
    addRulesGo gid rules kvs = .ok rs →
    (rules.map (fun kv => kv.1)).Nodup →
    (∀ kv ∈ rules, kv.2.is_root = true) →
    (rs.map (fun kv => kv.1)).Nodup ∧ ∀ kv ∈ rs, kv.2.is_root = true := by
  intro kvs
  induction kvs with
  | nil =>
    intro rules gid rs h hnd hroot
    rw [addRulesGo] at h
    cases h
    exact ⟨hnd, hroot⟩
  | cons kv rest ih =>
    intro rules gid rs h hnd hroot
    obtain ⟨n, r⟩ := kv
    rw [addRulesGo] at h
    by_cases hc : (rules.map (fun kv => kv.1)).contains n
    · rw [if_pos hc] at h
      cases h
    · rw [if_neg hc] at h
      apply ih (rules ++ [(n, ⟨n, some gid, true⟩)]) gid rs h
      · rw [List.map_append, List.nodup_append]
        refine ⟨hnd, by simp, ?_⟩
        intro x hx
        simp only [List.map_cons, List.map_nil, List.mem_singleton]
        intro hxn
        subst hxn
        exact absurd hx (by simpa using hc)
      · intro kv hkv
        rcases List.mem_append.mp hkv with hmem | hmem
        · exact hroot kv hmem
        · rw [List.mem_singleton] at hmem
          subst hmem
          rfl

/-- C6: `Grammar.add_rules` fails with `DuplicateRuleError` when a
given rule name is already registered; on success every given pair
`(name, node)` is registered with the node's display name assigned
from `name`, the node bound to this grammar and its `is_root` flag set
— so, starting from the invariant that a grammar's rule names are
unique and its rules root-marked (true of the empty registry of a
fresh grammar), any successful `add_rules` call preserves it. -/
theorem add_rules_spec (g : GrammarReg) (kvs : List (String × RuleNode)) :
    ((∃ kv ∈ kvs, kv.1 ∈ regNames g) → ∃ e, addRules g kvs = .error e) ∧
    (∀ g', addRules g kvs = .ok g' →
      (∀ kv ∈ kvs, (kv.1, (⟨kv.1, some g.gid, true⟩ : RuleNode)) ∈ g'.rules) ∧
      ((regNames g).Nodup → (∀ kv ∈ g.rules, kv.2.is_root = true) →
        (regNames g').Nodup ∧ ∀ kv ∈ g'.rules, kv.2.is_root = true)) := by
  constructor
  · intro hdup
    rcases addRulesGo_error_of_dup kvs g.rules g.gid hdup with ⟨e, he⟩
    exact ⟨e, by simp [addRules, he, Except.map]⟩
  · intro g' hok
    unfold addRules at hok
    cases hgo : addRulesGo g.gid g.rules kvs with
    | error e =>
      rw [hgo] at hok
      cases hok
    | ok rs =>
      rw [hgo] at hok
      cases hok
      refine ⟨fun kv hkv => (addRulesGo_ok kvs g.rules g.gid rs hgo).2 kv hkv,
        fun hnd hroot => ?_⟩
      exact addRulesGo_invariant kvs g.rules g.gid rs hgo hnd hroot

/-- C6 witness: adding rule `"a"` to a fresh grammar registers the
renamed, bound, root-marked node, keeps the invariant, and adding
`"a"` a second time fails. -/
theorem add_rules_spec_witness :
    (∃ e, addRules ⟨0, [("a", ⟨"a", some 0, true⟩)]⟩ [("a", ⟨"y", none, false⟩)] =
      .error e) ∧
    (("a", (⟨"a", some 0, true⟩ : RuleNode)) ∈
      (⟨0, [("a", ⟨"a", some 0, true⟩)]⟩ : GrammarReg).rules) ∧
    (regNames ⟨0, [("a", ⟨"a", some 0, true⟩)]⟩).Nodup ∧
    (∀ kv ∈ (⟨0, [("a", ⟨"a", some 0, true⟩)]⟩ : GrammarReg).rules,
      kv.2.is_root = true) := by
  have hok : addRules (⟨0, []⟩ : GrammarReg) [("a", ⟨"x", none, false⟩)] =
      .ok ⟨0, [("a", ⟨"a", some 0, true⟩)]⟩ := by rfl
  have h2 := (add_rules_spec (⟨0, []⟩ : GrammarReg) [("a", ⟨"x", none, false⟩)]).2 _ hok
  have hdup := (add_rules_spec (⟨0, [("a", ⟨"a", some 0, true⟩)]⟩ : GrammarReg)
      [("a", ⟨"y", none, false⟩)]).1 ⟨("a", ⟨"y", none, false⟩), by simp, by simp [regNames]⟩
  refine ⟨hdup, ?_, ?_, ?_⟩
  · exact h2.1 ("a", ⟨"x", none, false⟩) (List.mem_singleton.mpr rfl)
  · exact (h2.2 (by simp [regNames]) (by simp)).1
  · exact (h2.2 (by simp [regNames]) (by simp)).2

/-- Unfolding: an empty worklist returns the seen set. -/
theorem visitLoop_nil (g : GrammarRules) (seen : List String) :
    visitLoop g [] seen = some seen := by
  rw [visitLoop.eq_def]

/-- Unfolding: an already-seen head is skipped. -/
theorem visitLoop_cons_mem (g : GrammarRules) (n : String) (rest seen : List String)
    (hn : n ∈ seen) :
    visitLoop g (n :: rest) seen = visitLoop g rest seen := by
  rw [visitLoop.eq_def]
  dsimp only
  rw [dif_pos hn]

/-- Unfolding: an unseen head that is not a registered rule makes the
lookup fail. -/
theorem visitLoop_cons_none (g : GrammarRules) (n : String) (rest seen : List String)
    (hn : n ∉ seen) (hl : lookupRule g n = none) :
    visitLoop g (n :: rest) seen = none := by
  rw [visitLoop.eq_def]
  dsimp only
  rw [dif_neg hn]
  split
  · rfl
  · next q heq => rw [hl] at heq; cases heq

/-- Unfolding: an unseen registered head is marked seen and its
`Defer` targets are prepended to the worklist. -/
theorem visitLoop_cons_some (g : GrammarRules) (n : String) (rest seen : List String)
    (p : GParser) (hn : n ∉ seen) (hl : lookupRule g n = some p) :
    visitLoop g (n :: rest) seen = visitLoop g (deferNames p ++ rest) (n :: seen) := by
  rw [visitLoop.eq_def]
  dsimp only
  rw [dif_neg hn]
  split
  · next heq => rw [hl] at heq; cases heq
  · next q heq =>
    rw [hl] at heq
    cases heq
    rfl

/-- Soundness of the traversal: starting from a worklist and a seen
set of reachable names, every name in the final seen set is
reachable. -/
theorem visitLoop_sound (g : GrammarRules) :
    ∀ (wl seen res : List String), visitLoop g wl seen = some res →
    (∀ n ∈ wl, Reaches g n) → (∀ n ∈ seen, Reaches g n) →
    ∀ n ∈ res, Reaches g n := by
  intro wl seen
  induction wl, seen using visitLoop.induct g with
  | case1 seen =>
    intro res h hwl hseen
    rw [visitLoop_nil] at h
    cases h
    exact hseen
  | case2 n rest seen hn ih =>
    intro res h hwl hseen
    rw [visitLoop_cons_mem g n rest seen hn] at h
    exact ih res h (fun m hm => hwl m (List.mem_cons_of_mem n hm)) hseen
  | case3 n rest seen hn hl =>
    intro res h hwl hseen
    rw [visitLoop_cons_none g n rest seen hn hl] at h
    cases h
  | case4 n rest seen hn p hl ih =>
    intro res h hwl hseen
    rw [visitLoop_cons_some g n rest seen p hn hl] at h
    have hrn : Reaches g n := hwl n (List.mem_cons_self _ _)
    refine ih res h ?_ ?_
    · intro m hm
      rcases List.mem_append.mp hm with hdm | hrm
      · exact Reaches.step hrn hl hdm
      · exact hwl m (List.mem_cons_of_mem n hrm)
    · intro m hm
      rcases List.mem_cons.mp hm with rfl | hms
      · exact hrn
      · exact hseen m hms

/-- The final seen set contains the initial seen set and every
worklist entry. -/
theorem visitLoop_subset (g : GrammarRules) :
    ∀ (wl seen res : List String), visitLoop g wl seen = some res →
    (∀ n ∈ seen, n ∈ res) ∧ (∀ n ∈ wl, n ∈ res) := by
  intro wl seen
  induction wl, seen using visitLoop.induct g with
  | case1 seen =>
    intro res h
    rw [visitLoop_nil] at h
    cases h
    exact ⟨fun n hn => hn, by simp⟩
  | case2 n rest seen hn ih =>
    intro res h
    rw [visitLoop_cons_mem g n rest seen hn] at h
    obtain ⟨hseen, hwl⟩ := ih res h
    refine ⟨hseen, fun m hm => ?_⟩
    rcases List.mem_cons.mp hm with rfl | hms
    · exact hseen m hn
    · exact hwl m hms
  | case3 n rest seen hn hl =>
    intro res h
    rw [visitLoop_cons_none g n rest seen hn hl] at h
    cases h
  | case4 n rest seen hn p hl ih =>
    intro res h
    rw [visitLoop_cons_some g n rest seen p hn hl] at h
    obtain ⟨hseen, hwl⟩ := ih res h
    have hnres : n ∈ res := hseen n (List.mem_cons_self _ _)
    refine ⟨fun m hm => hseen m (List.mem_cons_of_mem n hm), fun m hm => ?_⟩
    rcases List.mem_cons.mp hm with rfl | hms
    · exact hnres
    · exact hwl m (List.mem_append_right _ hms)

/-- Closure of the traversal result: if every already-seen rule's
`Defer` targets lie in the seen set or the worklist, then in the final
seen set every member's `Defer` targets are again members. -/
theorem visitLoop_closed (g : GrammarRules) :
    ∀ (wl seen res : List String), visitLoop g wl seen = some res →
    (∀ x ∈ seen, ∀ p, lookupRule g x = some p →
      ∀ m ∈ deferNames p, m ∈ seen ∨ m ∈ wl) →
    ∀ x ∈ res, ∀ p, lookupRule g x = some p → ∀ m ∈ deferNames p, m ∈ res := by
  intro wl seen
  induction wl, seen using visitLoop.induct g with
  | case1 seen =>
    intro res h hcl
    rw [visitLoop_nil] at h
    cases h
    intro x hx p hp m hm
    rcases hcl x hx p hp m hm with hs | hw
    · exact hs
    · simp at hw
  | case2 n rest seen hn ih =>
    intro res h hcl
    rw [visitLoop_cons_mem g n rest seen hn] at h
    refine ih res h ?_
    intro x hx p hp m hm
    rcases hcl x hx p hp m hm with hs | hw
    · exact Or.inl hs
    · rcases List.mem_cons.mp hw with rfl | hws
      · exact Or.inl hn
      · exact Or.inr hws
  | case3 n rest seen hn hl =>
    intro res h hcl
    rw [visitLoop_cons_none g n rest seen hn hl] at h
    cases h
  | case4 n rest seen hn p hl ih =>
    intro res h hcl
    rw [visitLoop_cons_some g n rest seen p hn hl] at h
    refine ih res h ?_
    intro x hx q hq m hm
    rcases List.mem_cons.mp hx with rfl | hxs
    · rw [hl] at hq
      cases hq
      exact Or.inr (List.mem_append_left _ hm)
    · rcases hcl x hxs q hq m hm with hs | hw
      · exact Or.inl (List.mem_cons_of_mem n hs)
      · rcases List.mem_cons.mp hw with rfl | hws
        · exact Or.inl (List.mem_cons_self _ _)
        · exact Or.inr (List.mem_append_right _ hws)

/-- The grammar of the spec's example: main rule `S`, rules
`S = A`, `A = Tok("x")`, `B = Tok("y")`. -/
def exampleGrammar : GrammarRules :=
  ⟨[("S", .defer "A"), ("A", .tok "x" false), ("B", .tok "y" false)], "S"⟩

/-- A cyclic grammar: `S` and `A` reference each other; the traversal
terminates thanks to the seen set. -/
def cyclicGrammar : GrammarRules :=
  ⟨[("S", .defer "A"), ("A", .defer "S"), ("B", .tok "y" false)], "S"⟩

/-- The traversal on the example grammar: `S` is visited, then `A`;
`B` is never reached. -/
theorem example_referenced_eq : referencedRules exampleGrammar = some ["A", "S"] := by
  rw [referencedRules]
  show visitLoop exampleGrammar ["S"] [] = some ["A", "S"]
  rw [visitLoop_cons_some exampleGrammar "S" [] [] (.defer "A") (by simp) rfl]
  have hd : deferNames (.defer "A") ++ ([] : List String) = ["A"] := by
    simp [deferNames]
  rw [hd]
  rw [visitLoop_cons_some exampleGrammar "A" [] ["S"] (.tok "x" false) (by decide) rfl]
  have hd2 : deferNames (.tok "x" false) ++ ([] : List String) = [] := by
    simp [deferNames]
  rw [hd2]
  rw [visitLoop_nil]

/-- The traversal on the cyclic grammar: `S`, then `A`, then the
back-reference to `S` is skipped by the seen set. -/
theorem cyclic_referenced_eq : referencedRules cyclicGrammar = some ["A", "S"] := by
  rw [referencedRules]
  show visitLoop cyclicGrammar ["S"] [] = some ["A", "S"]
  rw [visitLoop_cons_some cyclicGrammar "S" [] [] (.defer "A") (by simp) rfl]
  have hd : deferNames (.defer "A") ++ ([] : List String) = ["A"] := by
    simp [deferNames]
  rw [hd]
  rw [visitLoop_cons_some cyclicGrammar "A" [] ["S"] (.defer "S") (by decide) rfl]
  have hd2 : deferNames (.defer "S") ++ ([] : List String) = ["S"] := by
    simp [deferNames]
  rw [hd2]
  rw [visitLoop_cons_mem cyclicGrammar "S" [] ["A", "S"] (by decide)]
  rw [visitLoop_nil]

/-- C7: whenever the traversal of `get_unreferenced_rules` completes,
its referenced set contains exactly the names transitively referenced
from the main rule through `Defer` nodes, and the result is the
registered names minus that set; in particular, on the grammar with
main rule `S` and rules `S = A`, `A = Tok("x")`, `B = Tok("y")` the
result is exactly `{"B"}`, and the traversal also terminates with that
result on a cyclic variant (`S = A`, `A = S`, `B = Tok("y")`). -/
theorem get_unreferenced_rules_spec (g : GrammarRules) (res : List String)
    (h : referencedRules g = some res) :
    ((∀ n, n ∈ res ↔ Reaches g n) ∧
      getUnreferencedRules g =
        some ((ruleNames g).filter fun n => decide (n ∉ res))) ∧
    getUnreferencedRules exampleGrammar = some ["B"] ∧
    getUnreferencedRules cyclicGrammar = some ["B"] := by
  refine ⟨⟨fun n => ⟨fun hn => ?_, fun hr => ?_⟩, ?_⟩, ?_, ?_⟩
  · exact visitLoop_sound g [g.main_rule_name] [] res h
      (by intro m hm
          rcases List.mem_cons.mp hm with rfl | hm0
          · exact Reaches.main
          · simp at hm0)
      (by simp) n hn
  · have hmain : g.main_rule_name ∈ res :=
      (visitLoop_subset g [g.main_rule_name] [] res h).2 _ (List.mem_cons_self _ _)
    have hclosed := visitLoop_closed g [g.main_rule_name] [] res h (by simp)
    induction hr with
    | main => exact hmain
    | step hr hlook hdn ih => exact hclosed _ ih _ hlook _ hdn
  · unfold getUnreferencedRules
    rw [h]
    rfl
  · unfold getUnreferencedRules
    rw [example_referenced_eq]
    rfl
  · unfold getUnreferencedRules
    rw [cyclic_referenced_eq]
    rfl

/-- C7 witness: the traversal on the example grammar completes with
referenced set `{"A", "S"}`; the characterization and the example
instances follow from the theorem applied there. -/
theorem get_unreferenced_rules_spec_witness :
    ("A" ∈ ["A", "S"] ↔ Reaches exampleGrammar "A") ∧
    getUnreferencedRules exampleGrammar = some ["B"] ∧
    getUnreferencedRules cyclicGrammar = some ["B"] := by
  have h := get_unreferenced_rules_spec exampleGrammar ["A", "S"] example_referenced_eq
  exact ⟨h.1.1 "A", h.2.1, h.2.2⟩

end Langkit
